import Mathlib

/-!
Verification of the Image-Viewer core (src/src-tauri/src/lib.rs).

The Rust source is shallowly embedded: pure functions become Lean
functions; the SQLite-backed cache becomes an explicit list of rows
threaded through the operations; the filesystem and the external
`image`/`exif`/`sha2` libraries are abstracted as explicit function
parameters (the code under verification never inspects their internals,
it only branches on success/failure and consumes their outputs).
-/

namespace ImageViewer

/-- Embeds `IMAGE_EXTS` (src/src-tauri/src/lib.rs line 28). -/
def IMAGE_EXTS : List String := ["jpg", "jpeg", "png", "webp"]

/-- Embeds `PHASH_THRESHOLD` (line 29): max hamming distance for "similar". -/
def PHASH_THRESHOLD : Nat := 5

/-- Value of one hex character, as accepted by the `hex` crate
(`hex::decode`): digits, lowercase and uppercase letters. -/
def hexVal (c : Char) : Option Nat :=
  if 48 ≤ c.toNat ∧ c.toNat ≤ 57 then some (c.toNat - 48)
  else if 97 ≤ c.toNat ∧ c.toNat ≤ 102 then some (c.toNat - 87)
  else if 65 ≤ c.toNat ∧ c.toNat ≤ 70 then some (c.toNat - 55)
  else none

/-- Embeds `hex::decode` on a character list: bytes are built from pairs
of hex digits; an odd-length input or a non-hex character is an error
(`none`). -/
def hexDecodePairs : List Char → Option (List Nat)
  | [] => some []
  | [_] => none
  | c1 :: c2 :: rest =>
    match hexVal c1, hexVal c2 with
    | some h, some l => (hexDecodePairs rest).map (fun t => (16 * h + l) :: t)
    | _, _ => none

/-- Embeds `hex::decode` on a string. -/
def hex_decode (s : String) : Option (List Nat) :=
  hexDecodePairs s.data

/-- Embeds `hex::decode(x).unwrap_or_default()` (lines 287-288): a failed
decode yields the empty byte vector. -/
def hex_decode_bytes (s : String) : List Nat :=
  (hex_decode s).getD []

/-- Structural-fuel population count; `popcountAux n n` counts the set
bits of `n` (the fuel `n` is always enough since `n < 2 ^ n`). -/
def popcountAux : Nat → Nat → Nat
  | 0, _ => 0
  | fuel + 1, n => if n = 0 then 0 else n % 2 + popcountAux fuel (n / 2)

/-- Embeds `u32::count_ones` (line 295): number of set bits. -/
def popcount (n : Nat) : Nat := popcountAux n n

/-- Embeds `u32::MAX`, returned by `phash_distance` on a length
mismatch (line 290). -/
def U32_MAX : Nat := 4294967295

/-- Embeds `phash_distance` (lines 286-297): hamming distance between two
hex-encoded hashes; decode failures give empty byte vectors; a length
mismatch returns `u32::MAX`; otherwise the per-byte XOR popcounts are
summed. -/
def phash_distance (a b : String) : Nat :=
  let a_bytes := hex_decode_bytes a
  let b_bytes := hex_decode_bytes b
  if a_bytes.length ≠ b_bytes.length then U32_MAX
  else ((a_bytes.zip b_bytes).map (fun p => popcount (p.1 ^^^ p.2))).sum

/-- Embeds `ExifData` (lines 31-38). -/
structure ExifData where
  date : Option Int
  make : Option String
  model : Option String
  width : Option Nat
  height : Option Nat
deriving DecidableEq

/-- Embeds `ImageInfo` (lines 40-50). -/
structure ImageInfo where
  path : String
  name : String
  size : Nat
  created_at : Int
  modified_at : Int
  phash : Option String
  sha1 : Option String
  exif : Option ExifData
deriving DecidableEq

/-! ### Perceptual hash (dHash), lines 196-217

`image::load_from_memory`, `grayscale`, `resize_exact(9, 8, Lanczos3)` and
`to_luma8().into_raw()` are external `image`-crate code; they are
abstracted as one `decode` parameter producing, on success, the flat
9x8 grayscale pixel buffer (index `row * 9 + col`, values are bytes).
The bit packing, which is the code of `compute_phash` itself, is embedded
exactly. -/

/-- One dHash bit (lines 210-212): 1 when the left pixel is strictly
brighter than its right neighbour. -/
def dhash_bit (p : Nat → Nat) (row col : Nat) : Nat :=
  if p (row * 9 + col) > p (row * 9 + col + 1) then 1 else 0

/-- Embeds the accumulation loop of `compute_phash` (lines 207-214):
`hash = (hash << 1) | bit` over rows 0..8 and cols 0..8. The `u64`
accumulator never overflows: 64 bits are shifted into a register that
starts at 0, so the value stays below 2 ^ 64 (proved below). -/
def phash_val (p : Nat → Nat) : Nat :=
  (List.range 8).foldl
    (fun h row =>
      (List.range 8).foldl (fun h2 col => (h2 <<< 1) ||| dhash_bit p row col) h)
    0

/-- Hex character of a value below 16, lowercase, as produced by the
format specifier `{:016x}`. -/
def hexDigit (d : Nat) : Char :=
  if d < 10 then Char.ofNat (48 + d) else Char.ofNat (87 + d)

/-- Embeds `format!("\x7b:016x\x7d", hash)` for a `u64` value: 16 hex
digits, most significant first, with leading zeros. -/
def toHex16 (n : Nat) : String :=
  String.mk ((List.range 16).map (fun i => hexDigit (n / 16 ^ (15 - i) % 16)))

/-- Embeds `compute_phash` (lines 196-217); `decode` abstracts
`image::load_from_memory` composed with grayscale conversion and the
exact 9x8 Lanczos3 resize, returning the flat luma buffer. -/
def compute_phash (decode : List Nat → Option (Nat → Nat)) (bytes : List Nat) :
    Option String :=
  (decode bytes).map (fun p => toHex16 (phash_val p))

/-! ### Reference dHash, modelled from the spec -/

/-- Modelled from the spec: the value of a bit list in which the first
bit is most significant (each bit's weight is 2 to the number of bits
after it). -/
def msbValue : List Nat → Nat
  | [] => 0
  | b :: bs => b * 2 ^ bs.length + msbValue bs

/-- Modelled from the spec: the 64 dHash bits in row-major,
left-to-right, top-to-bottom order. -/
def dhash_bits (p : Nat → Nat) : List Nat :=
  (List.range 8).flatMap (fun row => (List.range 8).map (fun col => dhash_bit p row col))

/-- Modelled from the spec: the 64-bit dHash value, first bit most
significant. -/
def dhash_spec_val (p : Nat → Nat) : Nat := msbValue (dhash_bits p)

/-! ### Filesystem, external libraries and cache model -/

/-- Result of `fs::metadata` for one file: `len()` is total (`size`);
`modified()` and `created()` can each fail independently (`None`).
Times are modelled as signed seconds relative to the Unix epoch. -/
structure FsMeta where
  size : Nat
  modified : Option Int
  created : Option Int

/-- Per-file view of the filesystem and of header parsing:
`stat` models `fs::metadata`, `readBytes` models `fs::read`,
`fileName` models `Path::file_name`, `headerDims` models
`image::image_dimensions`. -/
structure FileEnv where
  stat : Option FsMeta
  readBytes : Option (List Nat)
  fileName : Option String
  headerDims : Option (Nat × Nat)

/-- External pure libraries used by `process_image_file`:
`decodeImage` abstracts the `image` crate's decode + grayscale + 9x8
resize (consumed by `compute_phash`), `compute_exif` abstracts the
`exif` crate pipeline (lines 156-194), `sha256hex` abstracts
`compute_sha256` (lines 219-223). -/
structure ImgLib where
  decodeImage : List Nat → Option (Nat → Nat)
  compute_exif : List Nat → Option ExifData
  sha256hex : List Nat → String

/-- Embeds `system_time_to_unix` (lines 150-154): a time before the
epoch makes `duration_since` fail, giving 0. -/
def system_time_to_unix (t : Int) : Int :=
  if t < 0 then 0 else t

/-- Embeds `cache_get` (lines 85-107): the row is returned only when
path, `modified_at` and `size` all match; no row is a miss (`None`),
never an error. The cache is modelled as the list of stored rows. -/
def cache_get (cache : List ImageInfo) (path : String) (mtime : Int) (size : Nat) :
    Option ImageInfo :=
  cache.find? (fun r => r.path == path && r.modified_at == mtime && r.size == size)

/-- Embeds `cache_set` (lines 109-128): `INSERT OR REPLACE` keyed by
path. -/
def cache_set (img : ImageInfo) (cache : List ImageInfo) : List ImageInfo :=
  img :: cache.filter (fun r => !(r.path == img.path))

/-- Embeds `cache_prune` (lines 131-148): deletes every row whose path
is not among `valid`, returning the number of rows deleted together
with the surviving cache. -/
def cache_prune (valid : List String) (cache : List ImageInfo) :
    Nat × List ImageInfo :=
  ((cache.filter (fun r => !(valid.contains r.path))).length,
   cache.filter (fun r => valid.contains r.path))

/-- Embeds `process_image_file` (lines 225-283). The returned triple is
(produced record, whether `fs::read` was reached, cache afterwards). -/
def process_image_file (lib : ImgLib) (env : FileEnv) (path : String)
    (cache : List ImageInfo) : Option ImageInfo × Bool × List ImageInfo :=
  match env.stat with
  | none => (none, false, cache)
  | some meta =>
    match meta.modified with
    | none => (none, false, cache)
    | some mt =>
      let mtime := system_time_to_unix mt
      let created_at := system_time_to_unix (meta.created.getD 0)
      match cache_get cache path mtime meta.size with
      | some cached => (some cached, false, cache)
      | none =>
        match env.readBytes with
        | none => (none, true, cache)
        | some bytes =>
          let exif0 := lib.compute_exif bytes
          let phash := compute_phash lib.decodeImage bytes
          let sha1 := some (lib.sha256hex bytes)
          let needs_dims := exif0.elim true (fun e => e.width.isNone)
          let exif1 :=
            if needs_dims then
              match env.headerDims with
              | some (w, h) =>
                match exif0 with
                | some e => some { e with width := some w, height := some h }
                | none => some ⟨none, none, none, some w, some h⟩
              | none => exif0
            else exif0
          match env.fileName with
          | none => (none, true, cache)
          | some nm =>
            let info : ImageInfo :=
              ⟨path, nm, meta.size, created_at, mtime, phash, sha1, exif1⟩
            (some info, true, cache_set info cache)

/-- Embeds the per-file phase of `scan_folder` (lines 338-349) as its
sequential linearization: each path runs `process_image_file` against
the shared cache, failures are dropped from the result list. -/
def process_all (lib : ImgLib) (fs : String → FileEnv) (paths : List String)
    (cache : List ImageInfo) : List ImageInfo × List ImageInfo :=
  match paths with
  | [] => ([], cache)
  | p :: rest =>
    let r := process_image_file lib (fs p) p cache
    let rec' := process_all lib fs rest r.2.2
    (match r.1 with
     | some i => i :: rec'.1
     | none => rec'.1,
     rec'.2)

/-- Embeds the result assembly and pruning of `scan_folder`
(lines 338-358): after processing, `cache_prune` is called with the
paths of the scan's result set. Returns (results, rows pruned, cache
afterwards). -/
def scan_folder (lib : ImgLib) (fs : String → FileEnv) (paths : List String)
    (cache : List ImageInfo) : List ImageInfo × Nat × List ImageInfo :=
  let pa := process_all lib fs paths cache
  let pr := cache_prune (pa.1.map (fun i => i.path)) pa.2
  (pa.1, pr.1, pr.2)

/-! ### Near-duplicate clustering, lines 361-397 -/

/-- Embeds the inner loop of `find_similar_duplicates` (lines 375-388):
candidates are scanned in order; one joins the growing group exactly
when it is within `PHASH_THRESHOLD` of some member at that moment
(`group.iter().any(...)`). Returns the final group and the unjoined
candidates, in order (they keep `processed[j] = false`). -/
def build_group : List ImageInfo → List ImageInfo → List ImageInfo × List ImageInfo
  | group, [] => (group, [])
  | group, c :: cs =>
    if group.any (fun g =>
        phash_distance (g.phash.getD "") (c.phash.getD "") ≤ PHASH_THRESHOLD) then
      build_group (group ++ [c]) cs
    else
      let r := build_group group cs
      (r.1, c :: r.2)

theorem build_group_snd_sublist :
    ∀ (group cs : List ImageInfo), (build_group group cs).2.Sublist cs := by
  intro group cs
  induction cs generalizing group with
  | nil => simp [build_group]
  | cons c cs ih =>
    simp only [build_group]
    split
    · exact (ih (group ++ [c])).trans (List.sublist_cons_self c cs)
    · exact (ih group).cons₂ c

/-- Outer loop of `find_similar_duplicates`, structurally recursive on a
fuel bound; `similar_outer` below instantiates the fuel with the list
length, which always suffices because the unjoined pool shrinks at every
step. -/
def similar_outer_fuel : Nat → List ImageInfo → List (List ImageInfo)
  | 0, _ => []
  | _ + 1, [] => []
  | fuel + 1, seed :: rest =>
    let r := build_group [seed] rest
    if 1 < r.1.length then r.1 :: similar_outer_fuel fuel r.2
    else similar_outer_fuel fuel r.2

theorem similar_outer_fuel_congr :
    ∀ (f1 f2 : Nat) (l : List ImageInfo), l.length ≤ f1 → l.length ≤ f2 →
      similar_outer_fuel f1 l = similar_outer_fuel f2 l := by
  intro f1
  induction f1 with
  | zero =>
    intro f2 l h1 _
    have : l = [] := List.length_eq_zero.mp (Nat.le_zero.mp h1)
    subst this
    cases f2 <;> simp [similar_outer_fuel]
  | succ f1 ih =>
    intro f2 l h1 h2
    match l with
    | [] => cases f2 <;> simp [similar_outer_fuel]
    | seed :: rest =>
      match f2 with
      | f2' + 1 =>
        simp only [similar_outer_fuel]
        have hlen := (build_group_snd_sublist [seed] rest).length_le
        have hr : (build_group [seed] rest).2.length ≤ f1 := by
          simp only [List.length_cons] at h1; omega
        have hr' : (build_group [seed] rest).2.length ≤ f2' := by
          simp only [List.length_cons] at h2; omega
        rw [ih f2' _ hr hr']

/-- Embeds the outer loop of `find_similar_duplicates` (lines 368-394):
each still-unprocessed record seeds a group; the group is kept only when
it gained at least one other member. A failed seed is never revisited
(the index loop moves past it), hence it is simply dropped from the
remaining pool. -/
def similar_outer (l : List ImageInfo) : List (List ImageInfo) :=
  similar_outer_fuel l.length l

/-- One-step unfolding of `similar_outer`, mirroring one iteration of the
outer loop of `find_similar_duplicates`. -/
theorem similar_outer_cons (seed : ImageInfo) (rest : List ImageInfo) :
    similar_outer (seed :: rest) =
      (if 1 < (build_group [seed] rest).1.length then
        (build_group [seed] rest).1 :: similar_outer (build_group [seed] rest).2
      else similar_outer (build_group [seed] rest).2) := by
  have hlen := (build_group_snd_sublist [seed] rest).length_le
  simp only [similar_outer, List.length_cons, similar_outer_fuel]
  rw [similar_outer_fuel_congr rest.length (build_group [seed] rest).2.length
    (build_group [seed] rest).2 hlen (Nat.le_refl _)]

/-- Embeds `find_similar_duplicates` (lines 361-397): records lacking a
perceptual hash are filtered out first. -/
def find_similar_duplicates (images : List ImageInfo) : List (List ImageInfo) :=
  similar_outer (images.filter (fun i => i.phash.isSome))

/-! ### Exact-duplicate clustering, lines 399-412

The Rust code buckets records into a `HashMap` keyed by their content
hash and keeps the buckets with more than one entry; bucket iteration
order is unspecified. The embedding enumerates the distinct keys in
first-occurrence order; each bucket holds exactly the records carrying
that key, in input order, as the `push` calls produce. -/

/-- Embeds `find_exact_duplicates` (lines 399-412). -/
def find_exact_duplicates (images : List ImageInfo) : List (List ImageInfo) :=
  let keys := (images.filterMap (fun i => i.sha1)).dedup
  (keys.map (fun k => images.filter (fun i => i.sha1 == some k))).filter
    (fun g => 1 < g.length)

/-! ### Deletion, lines 414-431 -/

/-- One element of the JSON array returned by `delete_images`. -/
structure DeleteOutcome where
  path : String
  deleted : Bool
  error : Option String
deriving DecidableEq

/-- Embeds `delete_images` (lines 414-431): `fsRemove` models
`fs::remove_file`, returning `none` on success and the error message on
failure. On success the corresponding cache row is also deleted; a
failure is recorded and processing continues with the remaining paths. -/
def delete_images (fsRemove : String → Option String) (paths : List String)
    (cache : List ImageInfo) : List DeleteOutcome × List ImageInfo :=
  match paths with
  | [] => ([], cache)
  | p :: rest =>
    match fsRemove p with
    | none =>
      let r := delete_images fsRemove rest (cache.filter (fun row => !(row.path == p)))
      (⟨p, true, none⟩ :: r.1, r.2)
    | some e =>
      let r := delete_images fsRemove rest cache
      (⟨p, false, some e⟩ :: r.1, r.2)

/-! ### Supporting lemmas: bit packing (dHash) -/

theorem shiftLeft_one_or (h b : Nat) (hb : b ≤ 1) : (h <<< 1) ||| b = 2 * h + b := by
  have h2 : h <<< 1 = 2 * h := by rw [Nat.shiftLeft_eq]; ring
  rw [h2]
  interval_cases b
  · simp
  · apply Nat.eq_of_testBit_eq
    intro i
    cases i with
    | zero =>
      simp only [Nat.testBit_or, Nat.testBit_zero]
      have e1 : 2 * h % 2 = 0 := by omega
      have e2 : (2 * h + 1) % 2 = 1 := by omega
      simp [e1, e2]
    | succ i =>
      have e1 : 2 * h / 2 = h := by omega
      have e2 : (2 * h + 1) / 2 = h := by omega
      have e3 : (1 : Nat) / 2 = 0 := by omega
      rw [Nat.testBit_or, Nat.testBit_succ, Nat.testBit_succ, Nat.testBit_succ,
        e1, e2, e3]
      simp

theorem foldl_shift_or (bs : List Nat) : ∀ h : Nat, (∀ b ∈ bs, b ≤ 1) →
    bs.foldl (fun a b => (a <<< 1) ||| b) h = h * 2 ^ bs.length + msbValue bs := by
  induction bs with
  | nil => intro h _; simp [msbValue]
  | cons b bs ih =>
    intro h hb
    simp only [List.foldl_cons, msbValue, List.length_cons]
    rw [shiftLeft_one_or h b (hb b (List.mem_cons_self b bs)),
      ih _ (fun x hx => hb x (List.mem_cons_of_mem _ hx))]
    ring

theorem phash_val_eq_foldl_bits (p : Nat → Nat) :
    phash_val p = (dhash_bits p).foldl (fun a b => (a <<< 1) ||| b) 0 := by
  simp [phash_val, dhash_bits, List.flatMap, List.foldl_flatten, List.foldl_map]

theorem dhash_bits_le (p : Nat → Nat) : ∀ b ∈ dhash_bits p, b ≤ 1 := by
  intro b hb
  simp only [dhash_bits, List.mem_flatMap, List.mem_map] at hb
  obtain ⟨row, _, col, _, rfl⟩ := hb
  unfold dhash_bit
  split <;> omega

theorem dhash_bits_length (p : Nat → Nat) : (dhash_bits p).length = 64 := rfl

/-- The code's bit packing equals the spec's most-significant-first
concatenation of the 64 dHash bits. -/
theorem phash_val_eq_spec (p : Nat → Nat) : phash_val p = dhash_spec_val p := by
  rw [phash_val_eq_foldl_bits, foldl_shift_or _ _ (dhash_bits_le p), dhash_spec_val]
  simp

theorem msbValue_lt (bs : List Nat) (hb : ∀ b ∈ bs, b ≤ 1) :
    msbValue bs < 2 ^ bs.length := by
  induction bs with
  | nil => simp [msbValue]
  | cons b bs ih =>
    simp only [msbValue, List.length_cons]
    have h1 : b * 2 ^ bs.length ≤ 2 ^ bs.length := by
      calc b * 2 ^ bs.length ≤ 1 * 2 ^ bs.length :=
            Nat.mul_le_mul_right _ (hb b (List.mem_cons_self b bs))
        _ = 2 ^ bs.length := one_mul _
    have h2 : msbValue bs < 2 ^ bs.length :=
      ih (fun x hx => hb x (List.mem_cons_of_mem _ hx))
    have h3 : (2 : Nat) ^ (bs.length + 1) = 2 ^ bs.length * 2 := pow_succ 2 _
    omega

/-- The `u64` accumulator of `compute_phash` never wraps: the packed
value is below 2 ^ 64. -/
theorem phash_val_lt (p : Nat → Nat) : phash_val p < 2 ^ 64 := by
  have := msbValue_lt (dhash_bits p) (dhash_bits_le p)
  rw [dhash_bits_length] at this
  rw [phash_val_eq_spec, dhash_spec_val]
  exact this

theorem hexDigit_mem (d : Nat) (hd : d < 16) :
    hexDigit d ∈ "0123456789abcdef".data := by
  interval_cases d <;> decide

theorem toHex16_length (n : Nat) : (toHex16 n).length = 16 := by
  simp [toHex16, String.length]

theorem toHex16_chars (n : Nat) :
    ∀ c ∈ (toHex16 n).data, c ∈ "0123456789abcdef".data := by
  intro c hc
  simp only [toHex16, String.data, List.mem_map] at hc
  obtain ⟨i, _, rfl⟩ := hc
  exact hexDigit_mem _ (Nat.mod_lt _ (by norm_num))

/-! ### Supporting lemmas: popcount and hamming distance -/

theorem popcountAux_congr :
    ∀ (f1 f2 n : Nat), n ≤ f1 → n ≤ f2 → popcountAux f1 n = popcountAux f2 n := by
  intro f1
  induction f1 with
  | zero =>
    intro f2 n h1 _
    have : n = 0 := by omega
    subst this
    cases f2 <;> simp [popcountAux]
  | succ f1 ih =>
    intro f2 n h1 h2
    by_cases hn : n = 0
    · subst hn; cases f2 <;> simp [popcountAux]
    · obtain ⟨f2', rfl⟩ := Nat.exists_eq_succ_of_ne_zero (by omega : f2 ≠ 0)
      simp only [popcountAux, if_neg hn]
      rw [ih f2' (n / 2) (by omega) (by omega)]

theorem popcount_rec (n : Nat) : popcount n = n % 2 + popcount (n / 2) := by
  by_cases hn : n = 0
  · subst hn; simp [popcount, popcountAux]
  · obtain ⟨m, rfl⟩ := Nat.exists_eq_succ_of_ne_zero hn
    show popcountAux (m + 1) (m + 1) = _
    simp only [popcountAux, if_neg (by omega : ¬ m + 1 = 0)]
    rw [popcountAux_congr m ((m + 1) / 2) ((m + 1) / 2) (by omega) (by omega)]
    rfl

theorem popcount_eq_sum_bits :
    ∀ (k n : Nat), n < 2 ^ k →
      popcount n = ((List.range k).map (fun i => n / 2 ^ i % 2)).sum := by
  intro k
  induction k with
  | zero =>
    intro n hn
    have : n = 0 := by simpa using hn
    subst this
    simp [popcount, popcountAux]
  | succ k ih =>
    intro n hn
    rw [List.range_succ_eq_map, List.map_cons, List.map_map, List.sum_cons]
    have e0 : n / 2 ^ 0 % 2 = n % 2 := by simp
    have efun : ((fun i => n / 2 ^ i % 2) ∘ Nat.succ) = (fun i => n / 2 / 2 ^ i % 2) := by
      funext i
      simp only [Function.comp]
      rw [Nat.div_div_eq_div_mul, ← pow_succ']
    have hdiv : n / 2 < 2 ^ k := by
      have h3 : (2 : Nat) ^ (k + 1) = 2 ^ k * 2 := pow_succ 2 _
      omega
    rw [e0, efun, ← ih (n / 2) hdiv, ← popcount_rec]

theorem div_pow_mod_two_eq (m i : Nat) :
    m / 2 ^ i % 2 = if m.testBit i then 1 else 0 := by
  rcases (show m / 2 ^ i % 2 = 0 ∨ m / 2 ^ i % 2 = 1 by omega) with h0 | h1
  · have hb : m.testBit i = false := by
      rw [Nat.testBit_to_div_mod, h0]
      simp
    rw [h0, hb]
    simp
  · have hb : m.testBit i = true := by
      rw [Nat.testBit_to_div_mod, h1]
      decide
    rw [h1, hb]
    simp

/-- Modelled from the spec: number of the 8 bit positions at which two
bytes differ. -/
def bit_diff8 (x y : Nat) : Nat :=
  ((List.range 8).map (fun i => if x.testBit i = y.testBit i then 0 else 1)).sum

/-- Modelled from the spec: Hamming distance between two byte sequences
as the count of differing bits. -/
def hamming_bits (a b : List Nat) : Nat :=
  ((a.zip b).map (fun q => bit_diff8 q.1 q.2)).sum

theorem popcount_xor_byte (x y : Nat) (hx : x < 256) (hy : y < 256) :
    popcount (x ^^^ y) = bit_diff8 x y := by
  have e8 : (2 : Nat) ^ 8 = 256 := by norm_num
  have hxor : x ^^^ y < 2 ^ 8 :=
    Nat.xor_lt_two_pow (by rw [e8]; exact hx) (by rw [e8]; exact hy)
  rw [popcount_eq_sum_bits 8 _ hxor, bit_diff8]
  congr 1
  apply List.map_congr_left
  intro i _
  rw [div_pow_mod_two_eq]
  have hx1 : (x ^^^ y).testBit i = (x.testBit i ^^ y.testBit i) := Nat.testBit_xor x y i
  by_cases hq : x.testBit i = y.testBit i
  · rw [if_pos hq]
    have : (x ^^^ y).testBit i = false := by
      rw [hx1, hq, Bool.xor_self]
    simp [this]
  · rw [if_neg hq]
    have : (x ^^^ y).testBit i = true := by
      rw [hx1]
      cases hbx : x.testBit i <;> cases hby : y.testBit i <;>
        simp_all
    simp [this]

theorem hexVal_lt {c : Char} {v : Nat} (h : hexVal c = some v) : v < 16 := by
  unfold hexVal at h
  split at h
  · injection h with h
    omega
  · split at h
    · injection h with h
      omega
    · split at h
      · injection h with h
        omega
      · exact absurd h (by simp)

theorem hexDecodePairs_lt :
    ∀ (cs : List Char) (bs : List Nat), hexDecodePairs cs = some bs →
      ∀ b ∈ bs, b < 256 := by
  intro cs
  induction cs using hexDecodePairs.induct with
  | case1 =>
    intro bs h
    simp only [hexDecodePairs, Option.some.injEq] at h
    subst h
    simp
  | case2 c =>
    intro bs h
    simp [hexDecodePairs] at h
  | case3 c1 c2 rest hv lv h2 h1 ih =>
    intro bs h
    simp only [hexDecodePairs, h1, h2, Option.map_eq_some'] at h
    obtain ⟨t, ht, rfl⟩ := h
    intro b hb
    rcases List.mem_cons.mp hb with rfl | hmem
    · have b1 := hexVal_lt h1
      have b2 := hexVal_lt h2
      omega
    · exact ih t ht b hmem
  | case4 c1 c2 rest hno =>
    intro bs h
    simp only [hexDecodePairs] at h
    exact absurd h (by simp)

theorem hex_decode_bytes_lt (s : String) : ∀ b ∈ hex_decode_bytes s, b < 256 := by
  unfold hex_decode_bytes hex_decode
  cases h : hexDecodePairs s.data with
  | none => simp
  | some bs =>
    simp only [Option.getD_some]
    exact hexDecodePairs_lt s.data bs h

theorem zip_popcount_eq_hamming :
    ∀ (xs ys : List Nat), (∀ x ∈ xs, x < 256) → (∀ y ∈ ys, y < 256) →
      ((xs.zip ys).map (fun p => popcount (p.1 ^^^ p.2))).sum = hamming_bits xs ys := by
  intro xs
  induction xs with
  | nil => intro ys _ _; simp [hamming_bits]
  | cons x xs ih =>
    intro ys hx hy
    cases ys with
    | nil => simp [hamming_bits]
    | cons y ys =>
      simp only [List.zip_cons_cons, List.map_cons, List.sum_cons, hamming_bits]
      rw [popcount_xor_byte x y (hx x (List.mem_cons_self x xs))
        (hy y (List.mem_cons_self y ys))]
      have := ih ys (fun a ha => hx a (List.mem_cons_of_mem _ ha))
        (fun a ha => hy a (List.mem_cons_of_mem _ ha))
      simp only [hamming_bits] at this
      rw [this]

theorem zip_xor_sum_comm :
    ∀ (xs ys : List Nat),
      ((xs.zip ys).map (fun p => popcount (p.1 ^^^ p.2))).sum =
        ((ys.zip xs).map (fun p => popcount (p.1 ^^^ p.2))).sum := by
  intro xs
  induction xs with
  | nil => intro ys; cases ys <;> simp
  | cons x xs ih =>
    intro ys
    cases ys with
    | nil => simp
    | cons y ys =>
      simp only [List.zip_cons_cons, List.map_cons, List.sum_cons, Nat.xor_comm x y]
      rw [ih ys]

theorem phash_distance_comm (a b : String) : phash_distance a b = phash_distance b a := by
  unfold phash_distance
  by_cases h : (hex_decode_bytes a).length = (hex_decode_bytes b).length
  · rw [if_neg (by omega), if_neg (by omega)]
    exact zip_xor_sum_comm _ _
  · rw [if_pos h, if_pos (fun e => h e.symm)]

theorem phash_distance_self (a : String) : phash_distance a a = 0 := by
  unfold phash_distance
  simp only [if_neg (by omega : ¬ (hex_decode_bytes a).length ≠ (hex_decode_bytes a).length)]
  generalize hex_decode_bytes a = xs
  induction xs with
  | nil => simp
  | cons x xs ih =>
    simp only [List.zip_cons_cons, List.map_cons, List.sum_cons, Nat.xor_self]
    rw [ih]
    simp [popcount, popcountAux]

/-! ### Supporting lemmas: near-duplicate clustering -/

theorem build_group_perm :
    ∀ (cs group : List ImageInfo),
      List.Perm ((build_group group cs).1 ++ (build_group group cs).2) (group ++ cs) := by
  intro cs
  induction cs with
  | nil => intro group; simp [build_group]
  | cons c cs ih =>
    intro group
    simp only [build_group]
    split
    · have h := ih (group ++ [c])
      rw [List.append_assoc] at h
      simpa using h
    · refine List.perm_middle.trans ?_
      refine ((ih group).cons c).trans ?_
      exact List.perm_middle.symm

/-- Two records are directly linked within a pool `S` when both belong
to `S` and their perceptual hashes are within the threshold. -/
def sim_link (S : List ImageInfo) (a b : ImageInfo) : Prop :=
  a ∈ S ∧ b ∈ S ∧
    phash_distance (a.phash.getD "") (b.phash.getD "") ≤ PHASH_THRESHOLD

/-- Chain connectivity through members of `S` via links of distance at
most `PHASH_THRESHOLD`. -/
def sim_connected (S : List ImageInfo) (a b : ImageInfo) : Prop :=
  Relation.ReflTransGen (sim_link S) a b

theorem sim_link_symm (S : List ImageInfo) : Symmetric (sim_link S) := by
  rintro a b ⟨ha, hb, hd⟩
  refine ⟨hb, ha, ?_⟩
  rwa [phash_distance_comm]

theorem sim_connected_symm (S : List ImageInfo) : Symmetric (sim_connected S) :=
  Relation.ReflTransGen.symmetric (sim_link_symm S)

theorem sim_connected_mono {S T : List ImageInfo} (hst : ∀ x ∈ S, x ∈ T)
    {a b : ImageInfo} (h : sim_connected S a b) : sim_connected T a b := by
  refine Relation.ReflTransGen.mono ?_ h
  rintro x y ⟨hx, hy, hd⟩
  exact ⟨hst x hx, hst y hy, hd⟩

theorem build_group_conn :
    ∀ (cs group : List ImageInfo),
      (∀ x ∈ group, ∀ y ∈ group, sim_connected group x y) →
      ∀ x ∈ (build_group group cs).1, ∀ y ∈ (build_group group cs).1,
        sim_connected (build_group group cs).1 x y := by
  intro cs
  induction cs with
  | nil => intro group h; simpa [build_group] using h
  | cons c cs ih =>
    intro group h
    simp only [build_group]
    split
    · rename_i hany
      apply ih (group ++ [c])
      simp only [List.any_eq_true, decide_eq_true_eq] at hany
      obtain ⟨m, hm, hd⟩ := hany
      have hsub : ∀ x ∈ group, x ∈ group ++ [c] := by
        intro x hx; exact List.mem_append_left _ hx
      have hc : c ∈ group ++ [c] := by simp
      have conn_to_c : ∀ z ∈ group, sim_connected (group ++ [c]) z c := by
        intro z hz
        refine Relation.ReflTransGen.trans
          (sim_connected_mono hsub (h z hz m hm)) ?_
        exact Relation.ReflTransGen.single ⟨hsub m hm, hc, hd⟩
      intro x hx y hy
      rcases List.mem_append.mp hx with hx' | hx' <;>
        rcases List.mem_append.mp hy with hy' | hy'
      · exact sim_connected_mono hsub (h x hx' y hy')
      · rw [List.mem_singleton.mp hy']
        exact conn_to_c x hx'
      · rw [List.mem_singleton.mp hx']
        exact sim_connected_symm _ (conn_to_c y hy')
      · rw [List.mem_singleton.mp hx', List.mem_singleton.mp hy']
        exact Relation.ReflTransGen.refl
    · exact ih group h

theorem similar_outer_groups :
    ∀ (n : Nat) (l : List ImageInfo), l.length ≤ n →
      ∀ g ∈ similar_outer l,
        1 < g.length ∧ (∀ x ∈ g, ∀ y ∈ g, sim_connected g x y) := by
  intro n
  induction n with
  | zero =>
    intro l hl
    have : l = [] := List.length_eq_zero.mp (by omega)
    subst this
    simp [similar_outer, similar_outer_fuel]
  | succ n ih =>
    intro l hl g hg
    cases l with
    | nil => simp [similar_outer, similar_outer_fuel] at hg
    | cons seed rest =>
      rw [similar_outer_cons] at hg
      have hrlen : (build_group [seed] rest).2.length ≤ n := by
        have := (build_group_snd_sublist [seed] rest).length_le
        simp only [List.length_cons] at hl
        omega
      have hseed : ∀ x ∈ [seed], ∀ y ∈ [seed], sim_connected [seed] x y := by
        intro x hx y hy
        rw [List.mem_singleton.mp hx, List.mem_singleton.mp hy]
        exact Relation.ReflTransGen.refl
      split at hg
      · rcases List.mem_cons.mp hg with rfl | hmem
        · exact ⟨by assumption, build_group_conn rest [seed] hseed⟩
        · exact ih _ hrlen g hmem
      · exact ih _ hrlen g hg

theorem similar_outer_flatten_subperm :
    ∀ (n : Nat) (l : List ImageInfo), l.length ≤ n →
      List.Subperm (similar_outer l).flatten l := by
  intro n
  induction n with
  | zero =>
    intro l hl
    have : l = [] := List.length_eq_zero.mp (by omega)
    subst this
    simp [similar_outer, similar_outer_fuel]
  | succ n ih =>
    intro l hl
    cases l with
    | nil => simp [similar_outer, similar_outer_fuel]
    | cons seed rest =>
      rw [similar_outer_cons]
      have hrlen : (build_group [seed] rest).2.length ≤ n := by
        have := (build_group_snd_sublist [seed] rest).length_le
        simp only [List.length_cons] at hl
        omega
      have hperm : List.Perm
          ((build_group [seed] rest).1 ++ (build_group [seed] rest).2)
          (seed :: rest) := build_group_perm rest [seed]
      split
      · rw [List.flatten_cons]
        refine List.Subperm.trans ?_ hperm.subperm
        exact (List.subperm_append_left _).mpr (ih _ hrlen)
      · refine List.Subperm.trans (ih _ hrlen) ?_
        refine List.Subperm.trans (build_group_snd_sublist [seed] rest).subperm ?_
        exact (List.sublist_cons_self seed rest).subperm

/-! ### Supporting lemmas: exact-duplicate clustering -/

theorem one_lt_length_of_mem_ne {α : Type} {x y : α} {l : List α}
    (hx : x ∈ l) (hy : y ∈ l) (hne : x ≠ y) : 1 < l.length := by
  match l with
  | [] => simp at hx
  | [a] =>
    rw [List.mem_singleton.mp hx, List.mem_singleton.mp hy] at hne
    exact absurd rfl hne
  | a :: b :: t => simp only [List.length_cons]; omega

theorem exact_group_mem {images : List ImageInfo} {g : List ImageInfo}
    (hg : g ∈ find_exact_duplicates images) :
    ∃ k, k ∈ (images.filterMap (fun i => i.sha1)).dedup ∧
      g = images.filter (fun i => i.sha1 == some k) ∧ 1 < g.length := by
  unfold find_exact_duplicates at hg
  have h1 := List.mem_filter.mp hg
  obtain ⟨hmap, hlen⟩ := h1
  obtain ⟨k, hk, rfl⟩ := List.mem_map.mp hmap
  exact ⟨k, hk, rfl, by simpa using hlen⟩

theorem exact_group_sha {images : List ImageInfo} {k : String} {x : ImageInfo}
    (hx : x ∈ images.filter (fun i => i.sha1 == some k)) :
    x ∈ images ∧ x.sha1 = some k := by
  have := List.mem_filter.mp hx
  exact ⟨this.1, by simpa using this.2⟩

/-! ### Supporting lemmas: cache lookup -/

theorem cache_get_some {cache : List ImageInfo} {path : String} {mtime : Int}
    {size : Nat} {r : ImageInfo} (h : cache_get cache path mtime size = some r) :
    r ∈ cache ∧ r.path = path ∧ r.modified_at = mtime ∧ r.size = size := by
  unfold cache_get at h
  have hmem := List.mem_of_find?_eq_some h
  have hp := List.find?_some h
  simp only [Bool.and_eq_true, beq_iff_eq] at hp
  exact ⟨hmem, hp.1.1, hp.1.2, hp.2⟩

theorem cache_get_none {cache : List ImageInfo} {path : String} {mtime : Int}
    {size : Nat}
    (h : ∀ r ∈ cache, ¬(r.path = path ∧ r.modified_at = mtime ∧ r.size = size)) :
    cache_get cache path mtime size = none := by
  unfold cache_get
  rw [List.find?_eq_none]
  intro r hr
  have := h r hr
  simp only [Bool.and_eq_true, beq_iff_eq]
  intro hc
  exact this ⟨hc.1.1, hc.1.2, hc.2⟩

/-! ### Supporting lemmas: deletion -/

theorem delete_images_fst (fs : String → Option String) :
    ∀ (paths : List String) (cache : List ImageInfo),
      (delete_images fs paths cache).1 = paths.map (fun p =>
        match fs p with
        | none => ⟨p, true, none⟩
        | some e => ⟨p, false, some e⟩) := by
  intro paths
  induction paths with
  | nil => intro cache; simp [delete_images]
  | cons p rest ih =>
    intro cache
    cases hfp : fs p with
    | none => simp [delete_images, hfp, ih]
    | some e => simp [delete_images, hfp, ih]

theorem delete_images_cache_mem (fs : String → Option String) :
    ∀ (paths : List String) (cache : List ImageInfo) (row : ImageInfo),
      row ∈ (delete_images fs paths cache).2 ↔
        row ∈ cache ∧ ∀ p ∈ paths, fs p = none → row.path ≠ p := by
  intro paths
  induction paths with
  | nil => intro cache row; simp [delete_images]
  | cons p rest ih =>
    intro cache row
    cases hfp : fs p with
    | none =>
      simp only [delete_images, hfp, ih, List.mem_filter, List.mem_cons]
      constructor
      · rintro ⟨⟨hmem, hne⟩, hrest⟩
        simp only [Bool.not_eq_eq_eq_not, Bool.not_true, beq_eq_false_iff_ne] at hne
        refine ⟨hmem, ?_⟩
        rintro q (rfl | hq) hfq
        · exact hne
        · exact hrest q hq hfq
      · rintro ⟨hmem, hall⟩
        have hne := hall p (Or.inl rfl) hfp
        refine ⟨⟨hmem, ?_⟩, ?_⟩
        · simp only [Bool.not_eq_eq_eq_not, Bool.not_true, beq_eq_false_iff_ne]
          exact hne
        · intro q hq hfq
          exact hall q (Or.inr hq) hfq
    | some e =>
      simp only [delete_images, hfp, ih, List.mem_cons]
      constructor
      · rintro ⟨hmem, hrest⟩
        refine ⟨hmem, ?_⟩
        rintro q (rfl | hq) hfq
        · rw [hfp] at hfq; exact absurd hfq (by simp)
        · exact hrest q hq hfq
      · rintro ⟨hmem, hall⟩
        refine ⟨hmem, ?_⟩
        intro q hq hfq
        exact hall q (Or.inr hq) hfq

/-! ### Supporting lemmas: pruning -/

theorem cache_prune_mem (valid : List String) (cache : List ImageInfo)
    (row : ImageInfo) :
    row ∈ (cache_prune valid cache).2 ↔ row ∈ cache ∧ row.path ∈ valid := by
  simp [cache_prune, List.mem_filter, List.elem_iff]

theorem cache_prune_count (valid : List String) (cache : List ImageInfo) :
    (cache_prune valid cache).1 =
      cache.countP (fun r => !(valid.contains r.path)) := by
  simp [cache_prune, List.countP_eq_length_filter]

/-! ### Concrete fixtures for witnesses and counterexamples -/

/-- Library whose image decoder rejects every byte sequence. -/
def libNone : ImgLib := ⟨fun _ => none, fun _ => none, fun _ => "sha"⟩

/-- Library whose image decoder accepts everything, producing an
all-black 9x8 buffer. -/
def libZero : ImgLib := ⟨fun _ => some (fun _ => 0), fun _ => none, fun _ => "sha"⟩

/-- A fully readable file: size 10, mtime 5, ctime 3, three bytes. -/
def envGood : FileEnv := ⟨some ⟨10, some 5, some 3⟩, some [1, 2, 3], some "a.jpg", none⟩

/-- A readable file whose creation time cannot be statted. -/
def envNoCreated : FileEnv := ⟨some ⟨10, some 5, none⟩, some [1, 2, 3], some "a.jpg", none⟩

/-- A cache row matching path "p", mtime 5, size 10. -/
def row0 : ImageInfo := ⟨"p", "n", 10, 0, 5, none, none, none⟩

/-- Witness record with a valid 16-digit all-zero perceptual hash. -/
def t0 : ImageInfo := ⟨"t0", "t0", 1, 0, 0, some "0000000000000000", some "s0", none⟩

/-- Witness record one fingerprint bit away from `t0`. -/
def t1 : ImageInfo := ⟨"t1", "t1", 1, 0, 0, some "0000000000000001", some "s0", none⟩

/-- Witness record with a malformed (non-hex) perceptual hash. -/
def m0 : ImageInfo := ⟨"m0", "m0", 1, 0, 0, some "zz", none, none⟩

/-- Second witness record with a different malformed perceptual hash. -/
def m1 : ImageInfo := ⟨"m1", "m1", 1, 0, 0, some "qq", none, none⟩

/-! ### Claims -/

/-- C1: for every byte sequence that decodes as an image, the perceptual
hash of `compute_phash` equals the dHash reference definition: on the
grayscale 9x8 buffer produced by the resize, each of the 8 rows
contributes 8 bits, bit = 1 exactly when the left pixel is strictly
brighter than its right neighbour, concatenated row-major with the first
bit most significant into a 64-bit value, rendered as a 16-character
lowercase hexadecimal string. -/
theorem claim_C1_phash_reference (decode : List Nat → Option (Nat → Nat))
    (bytes : List Nat) (p : Nat → Nat) (h : decode bytes = some p) :
    compute_phash decode bytes = some (toHex16 (dhash_spec_val p)) ∧
    phash_val p = dhash_spec_val p ∧
    phash_val p < 2 ^ 64 ∧
    (toHex16 (dhash_spec_val p)).length = 16 ∧
    ∀ c ∈ (toHex16 (dhash_spec_val p)).data, c ∈ "0123456789abcdef".data := by
  refine ⟨?_, phash_val_eq_spec p, phash_val_lt p, toHex16_length _, toHex16_chars _⟩
  simp [compute_phash, h, phash_val_eq_spec]

/-- C1 witness: the reference equality evaluated on an all-black decoded
image. -/
theorem claim_C1_witness :
    compute_phash (fun _ => some (fun _ => 0)) [] =
      some (toHex16 (dhash_spec_val (fun _ => 0))) ∧
    phash_val (fun _ => 0) = dhash_spec_val (fun _ => 0) ∧
    phash_val (fun _ => 0) < 2 ^ 64 ∧
    (toHex16 (dhash_spec_val (fun _ => 0))).length = 16 ∧
    ∀ c ∈ (toHex16 (dhash_spec_val (fun _ => 0))).data,
      c ∈ "0123456789abcdef".data :=
  claim_C1_phash_reference (fun _ => some (fun _ => 0)) [] (fun _ => 0) rfl

/-- C4: a cache lookup hit requires the stored path, `modified_at` and
`size` to equal the supplied values exactly; any mismatch or absent row
is `none` (never an error, the function is total); and on a hit the
content processor returns the stored record unchanged without reaching
the file read and without touching the cache. -/
theorem claim_C4_cache_validity :
    (∀ (cache : List ImageInfo) (path : String) (mtime : Int) (size : Nat) r,
      cache_get cache path mtime size = some r →
        r ∈ cache ∧ r.path = path ∧ r.modified_at = mtime ∧ r.size = size) ∧
    (∀ (cache : List ImageInfo) (path : String) (mtime : Int) (size : Nat),
      (∀ r ∈ cache, ¬(r.path = path ∧ r.modified_at = mtime ∧ r.size = size)) →
        cache_get cache path mtime size = none) ∧
    (∀ (lib : ImgLib) (env : FileEnv) (path : String) (cache : List ImageInfo)
        (m : FsMeta) (mt : Int) (r : ImageInfo),
      env.stat = some m → m.modified = some mt →
      cache_get cache path (system_time_to_unix mt) m.size = some r →
        process_image_file lib env path cache = (some r, false, cache)) := by
  refine ⟨fun _ _ _ _ _ h => cache_get_some h, fun _ _ _ _ h => cache_get_none h,
    ?_⟩
  intro lib env path cache m mt r hstat hmod hget
  simp [process_image_file, hstat, hmod, hget]

/-- C4 witness: a concrete cache hit is returned unchanged with no file
read. -/
theorem claim_C4_witness :
    process_image_file libNone envGood "p" [row0] = (some row0, false, [row0]) :=
  claim_C4_cache_validity.2.2 libNone envGood "p" [row0] ⟨10, some 5, some 3⟩ 5 row0
    rfl rfl (by decide)

/-- C5: the perceptual-hash distance equals the count of differing bits
between the two hex-decoded byte sequences (the popcount of their XOR);
it is symmetric and reflexive; a length mismatch between the decoded
sequences yields `u32::MAX`, which exceeds the clustering threshold. -/
theorem claim_C5_distance_metric :
    (∀ a b : String,
      (hex_decode_bytes a).length = (hex_decode_bytes b).length →
        phash_distance a b = hamming_bits (hex_decode_bytes a) (hex_decode_bytes b)) ∧
    (∀ a b : String, phash_distance a b = phash_distance b a) ∧
    (∀ a : String, phash_distance a a = 0) ∧
    (∀ a b : String,
      (hex_decode_bytes a).length ≠ (hex_decode_bytes b).length →
        phash_distance a b = U32_MAX ∧ ¬(phash_distance a b ≤ PHASH_THRESHOLD)) := by
  refine ⟨?_, phash_distance_comm, phash_distance_self, ?_⟩
  · intro a b h
    unfold phash_distance
    rw [if_neg (by omega)]
    exact zip_popcount_eq_hamming _ _ (hex_decode_bytes_lt a) (hex_decode_bytes_lt b)
  · intro a b h
    unfold phash_distance
    rw [if_pos h]
    refine ⟨rfl, ?_⟩
    simp [U32_MAX, PHASH_THRESHOLD]

/-- C5 witness: the metric evaluated on concrete hashes, including a
length mismatch. -/
theorem claim_C5_witness :
    phash_distance "0f" "f0" =
      hamming_bits (hex_decode_bytes "0f") (hex_decode_bytes "f0") ∧
    phash_distance "0f" "f0" = phash_distance "f0" "0f" ∧
    phash_distance "abcd" "abcd" = 0 ∧
    (phash_distance "00" "0000" = U32_MAX ∧
      ¬(phash_distance "00" "0000" ≤ PHASH_THRESHOLD)) :=
  ⟨claim_C5_distance_metric.1 "0f" "f0" (by decide),
   claim_C5_distance_metric.2.1 "0f" "f0",
   claim_C5_distance_metric.2.2.1 "abcd",
   claim_C5_distance_metric.2.2.2 "00" "0000" (by decide)⟩

/-- C2: near-duplicate clustering at the fixed threshold
`PHASH_THRESHOLD = 5` ignores records without a perceptual hash (the
embedded join rule of `build_group` admits a candidate exactly when it
is within the threshold of some current member, permitting transitive
chains); every returned group has at least 2 members; no record of a
duplicate-free input appears in two groups; and all members of a group
are chain-connected through the group by links of distance at most the
threshold. -/
theorem claim_C2_similar_clustering (images : List ImageInfo)
    (hnd : images.Nodup) :
    (∀ g ∈ find_similar_duplicates images, 1 < g.length) ∧
    (∀ g ∈ find_similar_duplicates images, ∀ x ∈ g,
      x.phash.isSome = true ∧ x ∈ images) ∧
    (find_similar_duplicates images).flatten.Nodup ∧
    (∀ g ∈ find_similar_duplicates images, ∀ x ∈ g, ∀ y ∈ g,
      sim_connected g x y) := by
  have hgroups := similar_outer_groups
    (images.filter (fun i => i.phash.isSome)).length
    (images.filter (fun i => i.phash.isSome)) (Nat.le_refl _)
  have hsub := similar_outer_flatten_subperm
    (images.filter (fun i => i.phash.isSome)).length
    (images.filter (fun i => i.phash.isSome)) (Nat.le_refl _)
  refine ⟨?_, ?_, ?_, ?_⟩
  · intro g hg
    exact (hgroups g hg).1
  · intro g hg x hx
    have hxin : x ∈ (find_similar_duplicates images).flatten :=
      List.mem_flatten.mpr ⟨g, hg, hx⟩
    have := hsub.subset hxin
    have hfil := List.mem_filter.mp this
    exact ⟨hfil.2, hfil.1⟩
  · obtain ⟨l', hp, hs⟩ := hsub
    have hnodup : l'.Nodup := hs.nodup (hnd.filter _)
    exact hp.nodup hnodup
  · intro g hg
    exact (hgroups g hg).2

/-- C2 witness: the clustering properties on two records one fingerprint
bit apart. -/
theorem claim_C2_witness :
    (∀ g ∈ find_similar_duplicates [t0, t1], 1 < g.length) ∧
    (∀ g ∈ find_similar_duplicates [t0, t1], ∀ x ∈ g,
      x.phash.isSome = true ∧ x ∈ [t0, t1]) ∧
    (find_similar_duplicates [t0, t1]).flatten.Nodup ∧
    (∀ g ∈ find_similar_duplicates [t0, t1], ∀ x ∈ g, ∀ y ∈ g,
      sim_connected g x y) :=
  claim_C2_similar_clustering [t0, t1] (by decide)

/-- C3: exact-duplicate clustering ignores records lacking a content
hash, keeps only groups of 2 or more records, every returned group's
members share one content hash, no record appears in two returned
groups, and any two distinct input records sharing a content hash end up
together in some returned group. -/
theorem claim_C3_exact_clustering (images : List ImageInfo) :
    (∀ g ∈ find_exact_duplicates images, 1 < g.length) ∧
    (∀ g ∈ find_exact_duplicates images, ∃ k, ∀ x ∈ g,
      x ∈ images ∧ x.sha1 = some k) ∧
    List.Pairwise (fun g1 g2 => ∀ x, x ∈ g1 → x ∉ g2)
      (find_exact_duplicates images) ∧
    (∀ g1 ∈ find_exact_duplicates images, ∀ g2 ∈ find_exact_duplicates images,
      (∃ x, x ∈ g1 ∧ x ∈ g2) → g1 = g2) ∧
    (∀ x ∈ images, ∀ y ∈ images, ∀ k, x.sha1 = some k → y.sha1 = some k →
      x ≠ y → ∃ g ∈ find_exact_duplicates images, x ∈ g ∧ y ∈ g) := by
  refine ⟨?_, ?_, ?_, ?_, ?_⟩
  · intro g hg
    obtain ⟨k, _, _, hlen⟩ := exact_group_mem hg
    exact hlen
  · intro g hg
    obtain ⟨k, _, rfl, _⟩ := exact_group_mem hg
    exact ⟨k, fun x hx => exact_group_sha hx⟩
  · unfold find_exact_duplicates
    refine List.Pairwise.sublist (List.filter_sublist _) ?_
    refine List.Pairwise.map _ ?_ (List.nodup_dedup _)
    intro k1 k2 hne x hx1 hx2
    have e1 := (exact_group_sha hx1).2
    have e2 := (exact_group_sha hx2).2
    exact hne (Option.some.inj (e1.symm.trans e2))
  · intro g1 hg1 g2 hg2 hover
    obtain ⟨x, hx1, hx2⟩ := hover
    obtain ⟨k1, _, rfl, _⟩ := exact_group_mem hg1
    obtain ⟨k2, _, rfl, _⟩ := exact_group_mem hg2
    have e1 := (exact_group_sha hx1).2
    have e2 := (exact_group_sha hx2).2
    rw [Option.some.inj (e1.symm.trans e2)]
  · intro x hx y hy k hxk hyk hne
    refine ⟨images.filter (fun i => i.sha1 == some k), ?_, ?_, ?_⟩
    · unfold find_exact_duplicates
      rw [List.mem_filter]
      constructor
      · refine List.mem_map.mpr ⟨k, ?_, rfl⟩
        rw [List.mem_dedup]
        exact List.mem_filterMap.mpr ⟨x, hx, hxk⟩
      · have hxg : x ∈ images.filter (fun i => i.sha1 == some k) :=
          List.mem_filter.mpr ⟨hx, by simp [hxk]⟩
        have hyg : y ∈ images.filter (fun i => i.sha1 == some k) :=
          List.mem_filter.mpr ⟨hy, by simp [hyk]⟩
        simpa using one_lt_length_of_mem_ne hxg hyg hne
    · exact List.mem_filter.mpr ⟨hx, by simp [hxk]⟩
    · exact List.mem_filter.mpr ⟨hy, by simp [hyk]⟩

/-- C3 witness: the exact-duplicate properties on two records sharing a
content hash. -/
theorem claim_C3_witness :
    (∀ g ∈ find_exact_duplicates [t0, t1], 1 < g.length) ∧
    (∀ g ∈ find_exact_duplicates [t0, t1], ∃ k, ∀ x ∈ g,
      x ∈ [t0, t1] ∧ x.sha1 = some k) ∧
    List.Pairwise (fun g1 g2 => ∀ x, x ∈ g1 → x ∉ g2)
      (find_exact_duplicates [t0, t1]) ∧
    (∀ g1 ∈ find_exact_duplicates [t0, t1], ∀ g2 ∈ find_exact_duplicates [t0, t1],
      (∃ x, x ∈ g1 ∧ x ∈ g2) → g1 = g2) ∧
    (∀ x ∈ [t0, t1], ∀ y ∈ [t0, t1], ∀ k, x.sha1 = some k → y.sha1 = some k →
      x ≠ y → ∃ g ∈ find_exact_duplicates [t0, t1], x ∈ g ∧ y ∈ g) :=
  claim_C3_exact_clustering [t0, t1]

/-- C6 counterexample: a file whose bytes fail image decoding is NOT
excluded from the scan result set — `process_image_file` still produces
a record (its perceptual hash simply stays absent), refuting the claim
at a concrete input where the decoder rejects the bytes. -/
theorem claim_C6_counterexample :
    libNone.decodeImage [1, 2, 3] = none ∧
    compute_phash libNone.decodeImage [1, 2, 3] = none ∧
    (process_image_file libNone envGood "p" []).1.isSome = true ∧
    (scan_folder libNone (fun _ => envGood) ["p"] []).1.length = 1 :=
  ⟨rfl, rfl, by decide, by decide⟩

/-- C6 (amended): a file whose bytes cannot be decoded as an image is
still included in the scan result set, with the perceptual hash absent;
no error is propagated (the processor is total and only drops a file on
stat/modified-time/read/file-name failures). -/
theorem claim_C6_decode_failure_included (lib : ImgLib) (env : FileEnv)
    (path : String) (cache : List ImageInfo) (m : FsMeta) (mt : Int)
    (bytes : List Nat) (nm : String)
    (hstat : env.stat = some m) (hmod : m.modified = some mt)
    (hmiss : cache_get cache path (system_time_to_unix mt) m.size = none)
    (hread : env.readBytes = some bytes)
    (hdec : lib.decodeImage bytes = none)
    (hname : env.fileName = some nm) :
    ∃ info, (process_image_file lib env path cache).1 = some info ∧
      info.phash = none := by
  have hph : compute_phash lib.decodeImage bytes = none := by
    simp [compute_phash, hdec]
  simp only [process_image_file, hstat, hmod, hmiss, hread, hname, hph]
  exact ⟨_, rfl, rfl⟩

/-- C6 witness: the amended inclusion evaluated at a concrete
undecodable file. -/
theorem claim_C6_witness :
    ∃ info, (process_image_file libNone envGood "p" []).1 = some info ∧
      info.phash = none :=
  claim_C6_decode_failure_included libNone envGood "p" [] ⟨10, some 5, some 3⟩ 5
    [1, 2, 3] "a.jpg" rfl rfl (by decide) rfl rfl rfl

/-- C7 counterexample: when only the creation time cannot be statted,
the file is NOT omitted — `process_image_file` still produces a record
whose `created_at` falls back to 0 (the Unix epoch), refuting the claim
at a concrete input. -/
theorem claim_C7_counterexample :
    envNoCreated.stat = some ⟨10, some 5, none⟩ ∧
    (process_image_file libNone envNoCreated "p" []).1 =
      some ⟨"p", "a.jpg", 10, 0, 5, none, some "sha", none⟩ :=
  ⟨rfl, by decide⟩

/-- C7 (amended): a metadata-stat failure or a modification-time failure
omits the file entirely (no partial record, no cache write); a
creation-time failure alone does not omit the file — the record is
produced with `created_at = 0` (the Unix epoch fallback). -/
theorem claim_C7_stat_failure (lib : ImgLib) (env : FileEnv) (path : String)
    (cache : List ImageInfo) :
    (env.stat = none → process_image_file lib env path cache = (none, false, cache)) ∧
    (∀ m, env.stat = some m → m.modified = none →
      process_image_file lib env path cache = (none, false, cache)) ∧
    (∀ m mt bytes nm, env.stat = some m → m.modified = some mt →
      m.created = none →
      cache_get cache path (system_time_to_unix mt) m.size = none →
      env.readBytes = some bytes → env.fileName = some nm →
      ∃ info, (process_image_file lib env path cache).1 = some info ∧
        info.created_at = 0) := by
  refine ⟨?_, ?_, ?_⟩
  · intro hstat
    simp [process_image_file, hstat]
  · intro m hstat hmod
    simp [process_image_file, hstat, hmod]
  · intro m mt bytes nm hstat hmod hcre hmiss hread hname
    have hzero : system_time_to_unix (m.created.getD 0) = 0 := by
      rw [hcre]
      simp [system_time_to_unix]
    simp only [process_image_file, hstat, hmod, hmiss, hread, hname, hzero]
    exact ⟨_, rfl, rfl⟩

/-- C7 witness: the amended behaviour evaluated at concrete inputs. -/
theorem claim_C7_witness :
    (∀ m, envNoCreated.stat = some m → m.modified = none →
      process_image_file libNone envNoCreated "p" [] = (none, false, [])) ∧
    (∃ info, (process_image_file libNone envNoCreated "p" []).1 = some info ∧
      info.created_at = 0) :=
  ⟨(claim_C7_stat_failure libNone envNoCreated "p" []).2.1,
   (claim_C7_stat_failure libNone envNoCreated "p" []).2.2 ⟨10, some 5, none⟩ 5
     [1, 2, 3] "a.jpg" rfl rfl rfl (by decide) rfl rfl⟩

/-- C8: pruning keeps exactly the cache rows whose path belongs to the
supplied set and returns the number of rows removed; a scan invokes the
prune with exactly the paths of its own result set, so the post-scan
cache retains precisely the pre-prune rows whose path appears among the
scan results. -/
theorem claim_C8_prune_exact :
    (∀ (valid : List String) (cache : List ImageInfo) (row : ImageInfo),
      row ∈ (cache_prune valid cache).2 ↔ row ∈ cache ∧ row.path ∈ valid) ∧
    (∀ (valid : List String) (cache : List ImageInfo),
      (cache_prune valid cache).1 =
        cache.countP (fun r => !(valid.contains r.path))) ∧
    (∀ (lib : ImgLib) (fs : String → FileEnv) (paths : List String)
        (cache : List ImageInfo),
      (scan_folder lib fs paths cache).2.2 =
        (cache_prune ((scan_folder lib fs paths cache).1.map (fun i => i.path))
          (process_all lib fs paths cache).2).2 ∧
      ∀ row, row ∈ (scan_folder lib fs paths cache).2.2 ↔
        row ∈ (process_all lib fs paths cache).2 ∧
          row.path ∈ (scan_folder lib fs paths cache).1.map (fun i => i.path)) := by
  refine ⟨cache_prune_mem, cache_prune_count, ?_⟩
  intro lib fs paths cache
  refine ⟨rfl, ?_⟩
  intro row
  exact cache_prune_mem _ _ row

/-- C8 witness: pruning evaluated on a concrete cache and scan. -/
theorem claim_C8_witness :
    (row0 ∈ (cache_prune ["p"] [row0, t0]).2 ↔
      row0 ∈ [row0, t0] ∧ row0.path ∈ ["p"]) ∧
    (cache_prune ["p"] [row0, t0]).1 =
      [row0, t0].countP (fun r => !(["p"].contains r.path)) :=
  ⟨claim_C8_prune_exact.1 ["p"] [row0, t0] row0,
   claim_C8_prune_exact.2.1 ["p"] [row0, t0]⟩

/-- C9: deletion returns exactly one outcome per input path, in input
order: a successful filesystem removal yields `deleted = true` and
removes the path's cache row; a failure yields `deleted = false` with
the failure's message and affects neither the remaining paths (each
outcome depends only on its own path) nor the cache. -/
theorem claim_C9_delete_outcomes (fsRemove : String → Option String)
    (paths : List String) (cache : List ImageInfo) :
    ((delete_images fsRemove paths cache).1.length = paths.length) ∧
    ((delete_images fsRemove paths cache).1 = paths.map (fun p =>
      match fsRemove p with
      | none => ⟨p, true, none⟩
      | some e => ⟨p, false, some e⟩)) ∧
    (∀ row, row ∈ (delete_images fsRemove paths cache).2 ↔
      row ∈ cache ∧ ∀ p ∈ paths, fsRemove p = none → row.path ≠ p) ∧
    (∀ o ∈ (delete_images fsRemove paths cache).1, o.deleted = false →
      ∃ e, o.error = some e ∧ fsRemove o.path = some e) := by
  refine ⟨?_, delete_images_fst fsRemove paths cache, ?_, ?_⟩
  · rw [delete_images_fst fsRemove paths cache, List.length_map]
  · exact delete_images_cache_mem fsRemove paths cache
  · intro o ho hdel
    rw [delete_images_fst fsRemove paths cache] at ho
    obtain ⟨p, _, rfl⟩ := List.mem_map.mp ho
    cases hfp : fsRemove p with
    | none =>
      rw [hfp] at hdel
      exact absurd hdel (by simp)
    | some e =>
      rw [hfp]
      exact ⟨e, by simp [hfp], by simp [hfp]⟩

/-- C9 witness: a batch with one success and one failure evaluated
concretely. -/
theorem claim_C9_witness :
    ((delete_images (fun p => if p == "p" then none else some "no such file")
        ["p", "x"] [row0, t0]).1.length = 2) ∧
    ((delete_images (fun p => if p == "p" then none else some "no such file")
        ["p", "x"] [row0, t0]).1 = ["p", "x"].map (fun p =>
      match (if p == "p" then none else some "no such file") with
      | none => ⟨p, true, none⟩
      | some e => ⟨p, false, some e⟩)) ∧
    (∀ row, row ∈ (delete_images
        (fun p => if p == "p" then none else some "no such file")
        ["p", "x"] [row0, t0]).2 ↔
      row ∈ [row0, t0] ∧ ∀ p ∈ ["p", "x"],
        (if p == "p" then none else some "no such file") = none →
          row.path ≠ p) ∧
    (∀ o ∈ (delete_images (fun p => if p == "p" then none else some "no such file")
        ["p", "x"] [row0, t0]).1, o.deleted = false →
      ∃ e, o.error = some e ∧
        (if o.path == "p" then none else some "no such file") = some e) :=
  claim_C9_delete_outcomes (fun p => if p == "p" then none else some "no such file")
    ["p", "x"] [row0, t0]

/-- C10: two perceptual-hash strings that both fail hexadecimal decoding
decode to the empty byte sequence, pass the length check, and get
distance 0; consequently two records carrying such malformed hashes are
grouped together as identical by near-duplicate clustering. -/
theorem claim_C10_malformed_grouped (a b : String) (r1 r2 : ImageInfo)
    (ha : hex_decode a = none) (hb : hex_decode b = none)
    (h1 : r1.phash = some a) (h2 : r2.phash = some b) :
    hex_decode_bytes a = [] ∧ hex_decode_bytes b = [] ∧
    phash_distance a b = 0 ∧
    find_similar_duplicates [r1, r2] = [[r1, r2]] := by
  have e1 : hex_decode_bytes a = [] := by simp [hex_decode_bytes, ha]
  have e2 : hex_decode_bytes b = [] := by simp [hex_decode_bytes, hb]
  have ed : phash_distance a b = 0 := by
    simp [phash_distance, e1, e2]
  refine ⟨e1, e2, ed, ?_⟩
  have hfil : [r1, r2].filter (fun i => i.phash.isSome) = [r1, r2] := by
    simp [List.filter, h1, h2]
  rw [find_similar_duplicates, hfil, similar_outer_cons]
  have hbg : build_group [r1] [r2] = ([r1, r2], []) := by
    have hdist : phash_distance (r1.phash.getD "") (r2.phash.getD "") ≤
        PHASH_THRESHOLD := by
      rw [h1, h2]
      simp only [Option.getD_some]
      rw [ed]
      simp [PHASH_THRESHOLD]
    simp [build_group, hdist]
  rw [hbg]
  simp [similar_outer, similar_outer_fuel]

/-- C10 witness: two records with distinct malformed hashes are grouped
as identical. -/
theorem claim_C10_witness :
    hex_decode_bytes "zz" = [] ∧ hex_decode_bytes "qq" = [] ∧
    phash_distance "zz" "qq" = 0 ∧
    find_similar_duplicates [m0, m1] = [[m0, m1]] :=
  claim_C10_malformed_grouped "zz" "qq" m0 m1 (by decide) (by decide) rfl rfl

end ImageViewer
